import Mathlib

/-!
Verification of the PAV ensemble backend (`annif/backend/pav.py`).

The backend combines suggestion hit lists from several source projects:
it calibrates each source's raw scores with per-concept isotonic (PAV)
regression models, then merges the calibrated, weighted hit lists over the
target project's vocabulary.  Scores are modelled as rationals, hit lists as
lists, the per-source model mapping and the on-disk artifacts as association
lists, and the backend's lazy model cache as explicit state.
-/

/-- A suggestion hit (`annif.hit.AnalysisHit`): concept URI, label, score. -/
structure AnalysisHit where
  uri : String
  label : String
  score : ℚ
deriving DecidableEq

/-- One pooled block of an isotonic (PAV) fit: the x-range `[xlo, xhi]` of the
pooled training points, the sum of their labels and their count. -/
structure Block where
  xlo : ℚ
  xhi : ℚ
  sum : ℚ
  cnt : ℕ
deriving DecidableEq

/-- The fitted value of a block: the mean of its pooled labels. -/
def Block.mean (b : Block) : ℚ := b.sum / b.cnt

/-- Pool two adjacent blocks (`a` on the left, `b` on the right). -/
def Block.pool (a b : Block) : Block := ⟨a.xlo, b.xhi, a.sum + b.sum, a.cnt + b.cnt⟩

/-- Modelled from the spec: the external monotonic-regression fitting primitive
(`sklearn.isotonic.IsotonicRegression.fit`, a black-box numerical routine per
the spec) is the pool-adjacent-violators algorithm.  The stack holds the blocks
built so far, head = rightmost; a new block is pushed, pooling away any
adjacent block whose mean exceeds the newcomer's. -/
def pavPush : List Block → Block → List Block
  | [], b => [b]
  | t :: rest, b => if b.mean < t.mean then pavPush rest (t.pool b) else b :: t :: rest

/-- Feed one training point (raw score, label) to the PAV stack. -/
def pavStep (s : List Block) (p : ℚ × ℚ) : List Block :=
  pavPush s ⟨p.1, p.1, p.2, 1⟩

/-- Run PAV over the training points, given as (raw score, label) pairs in
increasing raw-score order (the external primitive sorts and de-duplicates
raw scores before pooling). -/
def pavStack (pts : List (ℚ × ℚ)) : List Block :=
  pts.foldl pavStep []

/-- A fitted isotonic regressor: its pooled blocks in increasing x order. -/
structure Regressor where
  blocks : List Block
deriving DecidableEq

/-- Fit an isotonic regressor from (raw score, label) pairs. -/
def pavFit (pts : List (ℚ × ℚ)) : Regressor := ⟨(pavStack pts).reverse⟩

/-- Modelled from the spec: the regressor's `predict` with `out_of_bounds`
set to clip — the fitted step function, with inputs outside the trained range
clamped to the nearest trained boundary (never extrapolated). -/
def predictBlocks : List Block → ℚ → ℚ
  | [], _ => 0
  | [b], _ => b.mean
  | b :: b2 :: rest, x => if x ≤ b.xhi then b.mean else predictBlocks (b2 :: rest) x

/-- Calibrate one raw score with a fitted regressor. -/
def Regressor.predict (r : Regressor) (x : ℚ) : ℚ := predictBlocks r.blocks x

/-- The lower end of the regressor's trained input range. -/
def Regressor.xmin (r : Regressor) : ℚ := (r.blocks.headD ⟨0, 0, 0, 0⟩).xlo

/-- The upper end of the regressor's trained input range. -/
def Regressor.xmax (r : Regressor) : ℚ := (r.blocks.getLastD ⟨0, 0, 0, 0⟩).xhi

/-- A loaded PAV model for one source: the mapping from concept URI to the
fitted regressor (`reg_models` in the code). -/
abbrev RegModels := List (String × Regressor)

/-- `PAVBackend.MODEL_FILE_PREFIX`. -/
def MODEL_FILE_PREFIX : String := "pav-model-"

/-- `annif.exception.NotInitializedException`: carries the message and the
owning project's id. -/
structure NotInitializedException where
  message : String
  project_id : String
deriving DecidableEq

/-- The observable state of one `PAVBackend` instance: its data directory,
the persisted artifacts visible on disk (keyed by full path), and the lazy
in-memory model cache `self._models` (initially empty, standing for the
Python `None`/`{}` default). -/
structure PAVBackend where
  datadir : String
  disk : List (String × RegModels)
  models : List (String × RegModels)
deriving DecidableEq

/-- The source-id-derived artifact path: `os.path.join(datadir, MODEL_FILE_PREFIX + source_project_id)`. -/
def modelPath (datadir source_project_id : String) : String :=
  datadir ++ "/" ++ (MODEL_FILE_PREFIX ++ source_project_id)

/-- `PAVBackend._get_model`: return the cached mapping for the source if
present; otherwise load it from the source-id-derived path, caching it, or
raise `NotInitializedException` naming the missing path and the owning
project.  The returned flag records whether a disk load happened. -/
def _get_model (st : PAVBackend) (source_project_id project_id : String) :
    Except NotInitializedException (RegModels × PAVBackend × Bool) :=
  match st.models.lookup source_project_id with
  | some m => .ok (m, st, false)
  | none =>
    match st.disk.lookup (modelPath st.datadir source_project_id) with
    | some m =>
      .ok (m, { st with models := (source_project_id, m) :: st.models }, true)
    | none =>
      .error ⟨"PAV model file '" ++ modelPath st.datadir source_project_id
                ++ "' not found", project_id⟩

/-- A source project as this backend sees it (`annif.project`): its id, its
ordered vocabulary of (URI, label) pairs, and its `analyze` operation. -/
structure Project where
  project_id : String
  subjects : List (String × String)
  analyze : String → List AnalysisHit

/-- `annif.hit.ListAnalysisResult`: a hit list tagged with a vocabulary. -/
structure ListAnalysisResult where
  hits : List AnalysisHit
  subjects : List (String × String)
deriving DecidableEq

/-- The per-hit body of `_apply_pav`'s loop: if the hit's URI is in the
loaded model mapping, replace the score by the regressor's prediction,
otherwise default to the raw score; URI and label are copied over. -/
def applyPavHit (reg_models : RegModels) (h : AnalysisHit) : AnalysisHit :=
  match reg_models.lookup h.uri with
  | some reg => { h with score := reg.predict h.score }
  | none => h

/-- Descending order on hits, the sort key of `pav_result.sort(key=..., reverse=True)`. -/
def hitDesc (a b : AnalysisHit) : Prop := b.score ≤ a.score

instance : DecidableRel hitDesc :=
  fun a b => inferInstanceAs (Decidable (b.score ≤ a.score))

/-- Strictly descending order on hits. -/
def hitStrictDesc (a b : AnalysisHit) : Prop := b.score < a.score

instance : DecidableRel hitStrictDesc :=
  fun a b => inferInstanceAs (Decidable (b.score < a.score))

instance : IsTotal AnalysisHit hitDesc := ⟨fun a b => le_total b.score a.score⟩

instance : IsTrans AnalysisHit hitDesc := ⟨fun _ _ _ h1 h2 => le_trans h2 h1⟩

/-- The pure part of `_apply_pav`: map every hit through the calibration
branch, then sort by descending score. -/
def applyPavCore (reg_models : RegModels) (hits : List AnalysisHit) : List AnalysisHit :=
  List.insertionSort hitDesc (hits.map (applyPavHit reg_models))

/-- `PAVBackend._apply_pav`: fetch the source's model mapping (raising
`NotInitializedException` if its artifact is missing), calibrate every hit,
sort descending, and tag the result with the source project's vocabulary. -/
def _apply_pav (st : PAVBackend) (hits : ListAnalysisResult)
    (source_project : Project) (project : Project) :
    Except NotInitializedException (ListAnalysisResult × PAVBackend) :=
  match _get_model st source_project.project_id project.project_id with
  | .error e => .error e
  | .ok (reg_models, st', _) =>
    .ok (⟨applyPavCore reg_models hits.hits, source_project.subjects⟩, st')

/-- `annif.hit.WeightedHits`: a calibrated hit list with its source weight. -/
structure WeightedHits where
  hits : List AnalysisHit
  weight : ℚ

/-- The index of the first vocabulary entry with the given URI, if any. -/
def findURI : List (String × String) → String → Option ℕ
  | [], _ => none
  | s :: rest, u => if s.1 = u then some 0 else (findURI rest u).map (· + 1)

/-- Project one hit onto the target vocabulary index and accumulate its
weighted score there; a hit whose URI is absent from the target vocabulary
is dropped (contributes nothing). -/
def addHitStep (subjects : List (String × String)) (w : ℚ) (v : ℕ → ℚ)
    (h : AnalysisHit) : ℕ → ℚ :=
  match findURI subjects h.uri with
  | some i => fun j => if j = i then v j + w * h.score else v j
  | none => v

/-- One source's contribution to the merged score vector: project each hit
onto the target vocabulary index (hits whose URI is absent from the target
vocabulary are dropped), scale by the source weight and accumulate. -/
def addWeightedHits (subjects : List (String × String)) (w : ℚ)
    (hits : List AnalysisHit) (v : ℕ → ℚ) : ℕ → ℚ :=
  hits.foldl (addHitStep subjects w) v

/-- The merged score vector over the target vocabulary: start from the zero
vector and accumulate every source's weighted, projected hits. -/
def mergeVector (whs : List WeightedHits) (subjects : List (String × String)) : ℕ → ℚ :=
  whs.foldl (fun v wh => addWeightedHits subjects wh.weight wh.hits v) (fun _ => 0)

/-- Modelled from the spec: `annif.util.merge_hits` (called by `_analyze` but
not part of the repository excerpt).  Merge the weighted hit lists into one
score vector over the target vocabulary — concepts produced by no source keep
the implicit score 0 — and return the (concept, aggregate score) pairs sorted
descending by score. -/
def merge_hits (whs : List WeightedHits) (subjects : List (String × String)) :
    List AnalysisHit :=
  List.insertionSort hitDesc ((List.range subjects.length).map (fun i =>
    ⟨(subjects.getD i ("", "")).1, (subjects.getD i ("", "")).2,
      mergeVector whs subjects i⟩))

/-- `PAVBackend._analyze_with_sources`: analyze the text with every source
project, calibrate each raw hit list with `_apply_pav`, and pair it with the
source's weight.  A missing model artifact aborts with the error. -/
def _analyze_with_sources :
    PAVBackend → String → List (Project × ℚ) → Project →
      Except NotInitializedException (List WeightedHits × PAVBackend)
  | st, _, [], _ => .ok ([], st)
  | st, text, (sp, w) :: rest, project =>
    match _apply_pav st ⟨sp.analyze text, sp.subjects⟩ sp project with
    | .error e => .error e
    | .ok (pav_hits, st') =>
      match _analyze_with_sources st' text rest project with
      | .error e => .error e
      | .ok (whs, st'') => .ok (⟨pav_hits.hits, w⟩ :: whs, st'')

/-- `PAVBackend._analyze`: calibrate every source's hits and merge them over
the target project's vocabulary. -/
def _analyze (st : PAVBackend) (text : String) (sources : List (Project × ℚ))
    (project : Project) :
    Except NotInitializedException (List AnalysisHit × PAVBackend) :=
  match _analyze_with_sources st text sources project with
  | .error e => .error e
  | .ok (whs, st') => .ok (merge_hits whs project.subjects, st')

/-- Column `cid` of a row-major matrix (missing entries read as 0). -/
def matCol (rows : List (List ℚ)) (cid : ℕ) : List ℚ :=
  rows.map (fun row => row.getD cid 0)

/-- `true[:, cid].sum()`: the column sum of the label matrix. -/
def colSum (truem : List (List ℚ)) (cid : ℕ) : ℚ := (matCol truem cid).sum

/-- The (raw score, label) training pairs of concept `cid`: column `cid` of
the score matrix zipped with column `cid` of the label matrix. -/
def colPts (scores truem : List (List ℚ)) (cid : ℕ) : List (ℚ × ℚ) :=
  (matCol scores cid).zip (matCol truem cid)

/-- The regression-fitting loop of `PAVBackend._create_pav_model`: for every
concept index, skip it when its label-column sum is below `min_docs`,
otherwise fit an isotonic regressor on the concept's column and store it
under the concept's URI. -/
def _create_pav_regressions (subjects : List (String × String))
    (scores truem : List (List ℚ)) (min_docs : ℕ) : RegModels :=
  (List.range subjects.length).filterMap (fun cid =>
    if colSum truem cid < (min_docs : ℚ) then none
    else some ((subjects.getD cid ("", "")).1, pavFit (colPts scores truem cid)))

/-- The bytes in one artifact slot: a completely serialized model mapping, or
the truncated remains of an interrupted write. -/
inductive ArtifactData
  | full (m : RegModels)
  | truncated
deriving DecidableEq

/-- The two file-system slots `atomic_save` touches: the canonical artifact
name and the temporary location it writes first. -/
structure SaveFS where
  canonical : Option ArtifactData
  temp : Option ArtifactData
deriving DecidableEq

/-- Where a save attempt stops: before writing, crashing mid-write of the
temporary file, after the temporary write, or after the atomic commit. -/
inductive CrashPoint
  | beforeWrite
  | midWrite
  | afterWrite
  | afterCommit
deriving DecidableEq

/-- Modelled from the spec: `annif.util.atomic_save` (not part of the
repository excerpt) — serialize to a temporary location, then atomically
rename it over the canonical name; the canonical slot is only ever touched
by the final rename. -/
def atomic_save (fs : SaveFS) (m : RegModels) : CrashPoint → SaveFS
  | .beforeWrite => fs
  | .midWrite => { fs with temp := some .truncated }
  | .afterWrite => { fs with temp := some (.full m) }
  | .afterCommit => { canonical := some (.full m), temp := none }

/-- Loading a model reads only the canonical artifact name; the temporary
location is never visible to readers. -/
def readArtifact (fs : SaveFS) : Option ArtifactData := fs.canonical

/-- A freshly constructed backend instance: the cache starts empty
(the class-level `_models = None` default). -/
def initBackend (datadir : String) (disk : List (String × RegModels)) : PAVBackend :=
  ⟨datadir, disk, []⟩

/-- The state after one `_get_model` call (the only operation that mutates
the cache); a raised `NotInitializedException` leaves the state unchanged. -/
def stepModel (st : PAVBackend) (call : String × String) : PAVBackend :=
  match _get_model st call.1 call.2 with
  | .ok (_, st', _) => st'
  | .error _ => st

/-- The state after a sequence of `_get_model` calls, each a
(source id, project id) pair. -/
def runCalls (st : PAVBackend) (calls : List (String × String)) : PAVBackend :=
  calls.foldl stepModel st

/-- Every cached mapping was loaded from the artifact at its source-id-derived
path: the invariant tying the lazy cache to the disk. -/
def cacheConsistent (st : PAVBackend) : Prop :=
  ∀ sid m, st.models.lookup sid = some m →
    st.disk.lookup (modelPath st.datadir sid) = some m

/-- A block of pooled binary labels: its label sum lies between 0 and its
(positive) point count, so its mean is a probability. -/
def GoodBlock (t : Block) : Prop := 0 ≤ t.sum ∧ t.sum ≤ (t.cnt : ℚ) ∧ 0 < t.cnt

/-! ### Helper lemmas about `_get_model` and association-list lookup -/

lemma _get_model_ok_facts {st : PAVBackend} {sid pid : String} {m : RegModels}
    {st' : PAVBackend} {b : Bool}
    (h : _get_model st sid pid = .ok (m, st', b)) :
    st'.models.lookup sid = some m ∧ st'.datadir = st.datadir ∧ st'.disk = st.disk ∧
      (st'.models = st.models ∨
        (st'.models = (sid, m) :: st.models ∧ st.models.lookup sid = none ∧
          st.disk.lookup (modelPath st.datadir sid) = some m)) := by
  unfold _get_model at h
  split at h
  case h_1 m0 hm =>
    simp only [Except.ok.injEq, Prod.mk.injEq] at h
    obtain ⟨h1, h2, _⟩ := h
    subst h1; subst h2
    exact ⟨hm, rfl, rfl, Or.inl rfl⟩
  case h_2 hm =>
    split at h
    case h_1 md hd =>
      simp only [Except.ok.injEq, Prod.mk.injEq] at h
      obtain ⟨h1, h2, _⟩ := h
      subst h1; subst h2
      refine ⟨?_, rfl, rfl, Or.inr ⟨rfl, hm, hd⟩⟩
      simp [List.lookup]
    case h_2 => exact absurd h (by simp)

lemma _get_model_pid_irrel {st : PAVBackend} {sid pid : String}
    {r : RegModels × PAVBackend × Bool} (h : _get_model st sid pid = .ok r)
    (pid2 : String) : _get_model st sid pid2 = .ok r := by
  unfold _get_model at h ⊢
  split at h
  next => exact h
  next =>
    split at h
    next => exact h
    next => exact absurd h (by simp)

lemma stepModel_lookup_mono {st : PAVBackend} {sid : String} {m : RegModels}
    (h : st.models.lookup sid = some m) (c : String × String) :
    (stepModel st c).models.lookup sid = some m := by
  unfold stepModel
  cases hg : _get_model st c.1 c.2 with
  | error e => exact h
  | ok r =>
    obtain ⟨m2, st2, b2⟩ := r
    rcases (_get_model_ok_facts hg).2.2.2 with heq | ⟨heq, hnone, _⟩
    · rw [heq]; exact h
    · rw [heq]
      have hne : sid ≠ c.1 := by
        intro hcontra; rw [hcontra, hnone] at h; exact absurd h (by simp)
      have hbeq : (sid == c.1) = false := beq_eq_false_iff_ne.mpr hne
      simp [List.lookup, hbeq]
      exact h

lemma runCalls_lookup_mono {st : PAVBackend} {sid : String} {m : RegModels}
    (h : st.models.lookup sid = some m) (calls : List (String × String)) :
    (runCalls st calls).models.lookup sid = some m := by
  induction calls generalizing st with
  | nil => exact h
  | cons c rest ih => exact ih (stepModel_lookup_mono h c)

lemma reg_lookup_mem {l : RegModels} {u : String} {r : Regressor}
    (h : l.lookup u = some r) : (u, r) ∈ l := by
  induction l with
  | nil => exact absurd h (by simp)
  | cons a rest ih =>
    rw [List.lookup] at h
    split at h
    next hbeq =>
      have hu : u = a.1 := eq_of_beq hbeq
      simp only [Option.some.injEq] at h
      subst h; subst hu
      exact List.mem_cons_self _ _
    next hbeq => exact List.mem_cons_of_mem _ (ih h)

lemma reg_mem_lookup_isSome {l : RegModels} {u : String} {r : Regressor}
    (h : (u, r) ∈ l) : (l.lookup u).isSome := by
  induction l with
  | nil => exact absurd h (by simp)
  | cons a rest ih =>
    rw [List.lookup]
    split
    next => simp
    next hbeq =>
      rcases List.mem_cons.mp h with heq | hmem
      · exfalso
        have hu : u = a.1 := by rw [← heq]
        rw [hu] at hbeq
        simp at hbeq
      · exact ih hmem

lemma stepModel_fields (st : PAVBackend) (c : String × String) :
    (stepModel st c).datadir = st.datadir ∧ (stepModel st c).disk = st.disk := by
  unfold stepModel
  cases hg : _get_model st c.1 c.2 with
  | error e => exact ⟨rfl, rfl⟩
  | ok r =>
    obtain ⟨m2, st2, b2⟩ := r
    obtain ⟨_, h2, h3, _⟩ := _get_model_ok_facts hg
    exact ⟨h2, h3⟩

lemma stepModel_consistent {st : PAVBackend} (hc : cacheConsistent st)
    (c : String × String) : cacheConsistent (stepModel st c) := by
  intro sid m hm
  obtain ⟨hdd, hdk⟩ := stepModel_fields st c
  rw [hdd, hdk]
  revert hm
  unfold stepModel
  cases hg : _get_model st c.1 c.2 with
  | error e => exact hc sid m
  | ok r =>
    obtain ⟨m2, st2, b2⟩ := r
    intro hm
    rcases (_get_model_ok_facts hg).2.2.2 with heq | ⟨heq, hnone, hd⟩
    · exact hc sid m (heq ▸ hm)
    · rw [heq] at hm
      rw [List.lookup] at hm
      split at hm
      next hbeq =>
        have hsid : sid = c.1 := eq_of_beq hbeq
        simp only [Option.some.injEq] at hm
        subst hm; subst hsid
        exact hd
      next hbeq => exact hc sid m hm

lemma runCalls_fields (st : PAVBackend) (calls : List (String × String)) :
    (runCalls st calls).datadir = st.datadir ∧ (runCalls st calls).disk = st.disk := by
  induction calls generalizing st with
  | nil => exact ⟨rfl, rfl⟩
  | cons c rest ih =>
    obtain ⟨h1, h2⟩ := ih (stepModel st c)
    obtain ⟨g1, g2⟩ := stepModel_fields st c
    exact ⟨h1.trans g1, h2.trans g2⟩

lemma runCalls_consistent {st : PAVBackend} (hc : cacheConsistent st)
    (calls : List (String × String)) : cacheConsistent (runCalls st calls) := by
  induction calls generalizing st with
  | nil => exact hc
  | cons c rest ih => exact ih (stepModel_consistent hc c)

lemma initBackend_consistent (datadir : String) (disk : List (String × RegModels)) :
    cacheConsistent (initBackend datadir disk) := by
  intro sid m hm
  exact absurd hm (by simp [initBackend])

/-! ### Helper lemmas about the PAV fit and its prediction -/

lemma pavPush_mean (s : List Block) (b : Block)
    (hs : List.Pairwise (fun a c => c.mean ≤ a.mean) s) :
    List.Pairwise (fun a c => c.mean ≤ a.mean) (pavPush s b) := by
  induction s generalizing b with
  | nil => simp [pavPush]
  | cons a rest ih =>
    rw [pavPush]
    rcases List.pairwise_cons.mp hs with ⟨ha, hrest⟩
    by_cases hlt : b.mean < a.mean
    · rw [if_pos hlt]
      exact ih (a.pool b) hrest
    · rw [if_neg hlt]
      refine List.pairwise_cons.mpr ⟨?_, hs⟩
      intro t ht
      rcases List.mem_cons.mp ht with rfl | ht2
      · exact le_of_not_lt hlt
      · exact le_trans (ha t ht2) (le_of_not_lt hlt)

lemma pavPush_elem : ∀ (s : List Block) (b t : Block),
    t ∈ pavPush s b → t.xhi = b.xhi ∨ t ∈ s := by
  intro s
  induction s with
  | nil =>
    intro b t ht
    simp only [pavPush, List.mem_singleton] at ht
    subst ht
    exact Or.inl rfl
  | cons a rest ih =>
    intro b t ht
    rw [pavPush] at ht
    by_cases hlt : b.mean < a.mean
    · rw [if_pos hlt] at ht
      rcases ih (a.pool b) t ht with h | h
      · exact Or.inl h
      · exact Or.inr (List.mem_cons_of_mem _ h)
    · rw [if_neg hlt] at ht
      rcases List.mem_cons.mp ht with rfl | ht2
      · exact Or.inl rfl
      · exact Or.inr ht2

lemma pavPush_forall {P : Block → Prop} (hP : ∀ a c, P a → P c → P (a.pool c)) :
    ∀ (s : List Block) (b : Block), (∀ t ∈ s, P t) → P b → ∀ t ∈ pavPush s b, P t := by
  intro s
  induction s with
  | nil =>
    intro b _ hb t ht
    simp only [pavPush, List.mem_singleton] at ht
    subst ht
    exact hb
  | cons a rest ih =>
    intro b hs hb t ht
    rw [pavPush] at ht
    by_cases hlt : b.mean < a.mean
    · rw [if_pos hlt] at ht
      exact ih (a.pool b) (fun u hu => hs u (List.mem_cons_of_mem _ hu))
        (hP _ _ (hs a (List.mem_cons_self _ _)) hb) t ht
    · rw [if_neg hlt] at ht
      rcases List.mem_cons.mp ht with rfl | ht2
      · exact hb
      · exact hs t ht2

lemma pavPush_x : ∀ (s : List Block) (b : Block),
    List.Pairwise (fun a c => c.xhi < a.xlo) s → (∀ t ∈ s, t.xlo ≤ t.xhi) →
    b.xlo ≤ b.xhi → (∀ t ∈ s, t.xhi < b.xlo) →
    List.Pairwise (fun a c => c.xhi < a.xlo) (pavPush s b) ∧
      ∀ t ∈ pavPush s b, t.xlo ≤ t.xhi := by
  intro s
  induction s with
  | nil =>
    intro b _ _ hb _
    constructor
    · simp [pavPush]
    · intro t ht
      simp only [pavPush, List.mem_singleton] at ht
      subst ht
      exact hb
  | cons a rest ih =>
    intro b hp hwf hb hx
    rw [pavPush]
    rcases List.pairwise_cons.mp hp with ⟨ha, hrest⟩
    by_cases hlt : b.mean < a.mean
    · rw [if_pos hlt]
      apply ih (a.pool b) hrest (fun t ht => hwf t (List.mem_cons_of_mem _ ht))
      · show a.xlo ≤ b.xhi
        have h1 : a.xlo ≤ a.xhi := hwf a (List.mem_cons_self _ _)
        have h2 : a.xhi < b.xlo := hx a (List.mem_cons_self _ _)
        exact le_of_lt (lt_of_le_of_lt h1 (lt_of_lt_of_le h2 hb))
      · intro t ht
        show t.xhi < a.xlo
        exact ha t ht
    · rw [if_neg hlt]
      constructor
      · exact List.pairwise_cons.mpr ⟨hx, hp⟩
      · intro t ht
        rcases List.mem_cons.mp ht with rfl | ht2
        · exact hb
        · exact hwf t ht2

lemma pool_good : ∀ a c : Block, GoodBlock a → GoodBlock c → GoodBlock (a.pool c) := by
  rintro a c ⟨ha0, ha1, ha2⟩ ⟨hc0, hc1, hc2⟩
  refine ⟨add_nonneg ha0 hc0, ?_, Nat.add_pos_left ha2 _⟩
  show a.sum + c.sum ≤ ((a.cnt + c.cnt : ℕ) : ℚ)
  push_cast
  exact add_le_add ha1 hc1

lemma pavFold_mean : ∀ (pts : List (ℚ × ℚ)) (s : List Block),
    List.Pairwise (fun a c => c.mean ≤ a.mean) s →
    List.Pairwise (fun a c => c.mean ≤ a.mean) (pts.foldl pavStep s) := by
  intro pts
  induction pts with
  | nil => intro s hs; exact hs
  | cons p rest ih => intro s hs; exact ih _ (pavPush_mean s _ hs)

lemma pavFold_good : ∀ (pts : List (ℚ × ℚ)) (s : List Block),
    (∀ p ∈ pts, 0 ≤ p.2 ∧ p.2 ≤ 1) → (∀ t ∈ s, GoodBlock t) →
    ∀ t ∈ pts.foldl pavStep s, GoodBlock t := by
  intro pts
  induction pts with
  | nil => intro s _ hs; exact hs
  | cons p rest ih =>
    intro s hpts hs
    apply ih _ (fun q hq => hpts q (List.mem_cons_of_mem _ hq))
    apply pavPush_forall pool_good s _ hs
    obtain ⟨h0, h1⟩ := hpts p (List.mem_cons_self _ _)
    exact ⟨h0, by simpa using h1, one_pos⟩

lemma pavFold_x : ∀ (pts : List (ℚ × ℚ)) (s : List Block),
    List.Pairwise (fun p q => p.1 < q.1) pts →
    List.Pairwise (fun a c => c.xhi < a.xlo) s → (∀ t ∈ s, t.xlo ≤ t.xhi) →
    (∀ t ∈ s, ∀ p ∈ pts, t.xhi < p.1) →
    List.Pairwise (fun a c => c.xhi < a.xlo) (pts.foldl pavStep s) ∧
      ∀ t ∈ pts.foldl pavStep s, t.xlo ≤ t.xhi := by
  intro pts
  induction pts with
  | nil => intro s _ hp hwf _; exact ⟨hp, hwf⟩
  | cons p rest ih =>
    intro s hsort hp hwf hx
    rcases List.pairwise_cons.mp hsort with ⟨hpr, hrest⟩
    obtain ⟨hp2, hwf2⟩ := pavPush_x s ⟨p.1, p.1, p.2, 1⟩ hp hwf (le_refl _)
      (fun t ht => hx t ht p (List.mem_cons_self _ _))
    apply ih _ hrest hp2 hwf2
    intro t ht q hq
    rcases pavPush_elem s _ t ht with he | hm
    · rw [he]; exact hpr q hq
    · exact lt_trans (hx t hm p (List.mem_cons_self _ _)) (hpr q hq)

lemma predictBlocks_lb : ∀ (rest : List Block) (b : Block) (y : ℚ),
    List.Pairwise (fun a c => a.mean ≤ c.mean) (b :: rest) →
    b.mean ≤ predictBlocks (b :: rest) y := by
  intro rest
  induction rest with
  | nil => intro b y _; rw [predictBlocks]
  | cons b2 rest2 ih =>
    intro b y hm
    rw [predictBlocks]
    by_cases hx : y ≤ b.xhi
    · rw [if_pos hx]
    · rw [if_neg hx]
      rcases List.pairwise_cons.mp hm with ⟨hb, hm2⟩
      exact le_trans (hb b2 (List.mem_cons_self _ _)) (ih b2 y hm2)

lemma predictBlocks_mono : ∀ (l : List Block) (x y : ℚ),
    List.Pairwise (fun a c => a.mean ≤ c.mean) l → x ≤ y →
    predictBlocks l x ≤ predictBlocks l y := by
  intro l
  induction l with
  | nil => intro x y _ _; simp [predictBlocks]
  | cons b rest ih =>
    intro x y hm hxy
    cases rest with
    | nil => simp [predictBlocks]
    | cons b2 rest2 =>
      simp only [predictBlocks]
      by_cases hy : y ≤ b.xhi
      · have hx : x ≤ b.xhi := le_trans hxy hy
        rw [if_pos hx, if_pos hy]
      · rw [if_neg hy]
        by_cases hx : x ≤ b.xhi
        · rw [if_pos hx]
          rcases List.pairwise_cons.mp hm with ⟨hb, hm2⟩
          exact le_trans (hb b2 (List.mem_cons_self _ _)) (predictBlocks_lb rest2 b2 y hm2)
        · rw [if_neg hx]
          exact ih x y (List.pairwise_cons.mp hm).2 hxy

lemma good_mean {t : Block} (h : GoodBlock t) : 0 ≤ t.mean ∧ t.mean ≤ 1 := by
  obtain ⟨h0, h1, h2⟩ := h
  have hc : (0 : ℚ) < (t.cnt : ℚ) := by exact_mod_cast h2
  constructor
  · exact div_nonneg h0 (le_of_lt hc)
  · rw [Block.mean, div_le_one hc]; exact h1

lemma predictBlocks_range : ∀ (l : List Block) (x : ℚ), (∀ t ∈ l, GoodBlock t) →
    0 ≤ predictBlocks l x ∧ predictBlocks l x ≤ 1 := by
  intro l
  induction l with
  | nil => intro x _; simp [predictBlocks]
  | cons b rest ih =>
    intro x hg
    cases rest with
    | nil =>
      simp only [predictBlocks]
      exact good_mean (hg b (List.mem_cons_self _ _))
    | cons b2 rest2 =>
      simp only [predictBlocks]
      by_cases hx : x ≤ b.xhi
      · rw [if_pos hx]
        exact good_mean (hg b (List.mem_cons_self _ _))
      · rw [if_neg hx]
        exact ih x (fun t ht => hg t (List.mem_cons_of_mem _ ht))

lemma predictBlocks_clamp_lo (l : List Block) (x : ℚ)
    (hwf : ∀ t ∈ l, t.xlo ≤ t.xhi)
    (hx : x ≤ (l.headD ⟨0, 0, 0, 0⟩).xlo) :
    predictBlocks l x = predictBlocks l (l.headD ⟨0, 0, 0, 0⟩).xlo := by
  cases l with
  | nil => rfl
  | cons b rest =>
    cases rest with
    | nil => rfl
    | cons b2 rest2 =>
      have hb : b.xlo ≤ b.xhi := hwf b (List.mem_cons_self _ _)
      have hx1 : x ≤ b.xhi := le_trans (by simpa using hx) hb
      simp only [predictBlocks, List.headD]
      rw [if_pos hx1, if_pos hb]

lemma getLastD_mem_cons : ∀ (c : Block) (l : List Block) (d : Block),
    (c :: l).getLastD d ∈ c :: l := by
  intro c l
  induction l generalizing c with
  | nil => intro d; simp [List.getLastD]
  | cons e rest ih =>
    intro d
    rw [List.getLastD_cons]
    exact List.mem_cons_of_mem _ (ih e c)

lemma predictBlocks_clamp_hi : ∀ (l : List Block) (x : ℚ),
    List.Pairwise (fun a c => a.xhi < c.xlo) l → (∀ t ∈ l, t.xlo ≤ t.xhi) →
    (l.getLastD ⟨0, 0, 0, 0⟩).xhi ≤ x →
    predictBlocks l x = predictBlocks l (l.getLastD ⟨0, 0, 0, 0⟩).xhi := by
  intro l
  induction l with
  | nil => intro x _ _ _; rfl
  | cons b rest ih =>
    intro x hp hwf hx
    cases rest with
    | nil => rfl
    | cons b2 rest2 =>
      rcases List.pairwise_cons.mp hp with ⟨hb, hp2⟩
      have hlast_mem : (b2 :: rest2).getLastD b ∈ b2 :: rest2 := getLastD_mem_cons b2 rest2 b
      rw [List.getLastD_cons] at hlast_mem
      rw [List.getLastD_cons, List.getLastD_cons] at hx
      have hblast : b.xhi < (rest2.getLastD b2).xlo := by
        have h1 := hb _ (getLastD_mem_cons b2 rest2 b)
        rwa [List.getLastD_cons] at h1
      have hlwf : (rest2.getLastD b2).xlo ≤ (rest2.getLastD b2).xhi :=
        hwf _ (List.mem_cons_of_mem _ hlast_mem)
      have hxe : ¬ x ≤ b.xhi := by
        push_neg
        exact lt_of_lt_of_le hblast (le_trans hlwf hx)
      have hle : ¬ (rest2.getLastD b2).xhi ≤ b.xhi := by
        push_neg
        exact lt_of_lt_of_le hblast hlwf
      rw [List.getLastD_cons, List.getLastD_cons]
      simp only [predictBlocks]
      rw [if_neg hxe, if_neg hle]
      have hres := ih x hp2 (fun t ht => hwf t (List.mem_cons_of_mem _ ht))
        (by rw [List.getLastD_cons]; exact hx)
      rwa [List.getLastD_cons] at hres

lemma pavFit_blocks_meanMono (pts : List (ℚ × ℚ)) :
    List.Pairwise (fun a c => a.mean ≤ c.mean) (pavFit pts).blocks := by
  have h := pavFold_mean pts [] List.Pairwise.nil
  show List.Pairwise _ (pavStack pts).reverse
  rw [List.pairwise_reverse]
  exact h

lemma pavFit_mono (pts : List (ℚ × ℚ)) {x y : ℚ} (hxy : x ≤ y) :
    (pavFit pts).predict x ≤ (pavFit pts).predict y :=
  predictBlocks_mono _ x y (pavFit_blocks_meanMono pts) hxy

lemma pavFit_blocks_x (pts : List (ℚ × ℚ))
    (hs : List.Pairwise (fun p q => p.1 < q.1) pts) :
    List.Pairwise (fun a c => a.xhi < c.xlo) (pavFit pts).blocks ∧
      ∀ t ∈ (pavFit pts).blocks, t.xlo ≤ t.xhi := by
  obtain ⟨h1, h2⟩ := pavFold_x pts [] hs List.Pairwise.nil (by simp) (by simp)
  constructor
  · show List.Pairwise _ (pavStack pts).reverse
    rw [List.pairwise_reverse]
    exact h1
  · intro t ht
    exact h2 t (List.mem_reverse.mp ht)

lemma pavFit_good (pts : List (ℚ × ℚ)) (hlab : ∀ p ∈ pts, 0 ≤ p.2 ∧ p.2 ≤ 1) :
    ∀ t ∈ (pavFit pts).blocks, GoodBlock t := by
  intro t ht
  exact pavFold_good pts [] hlab (by simp) t (List.mem_reverse.mp ht)

lemma create_mem_eq {subjects : List (String × String)} {scores truem : List (List ℚ)}
    {min_docs : ℕ} {u : String} {reg : Regressor}
    (h : (u, reg) ∈ _create_pav_regressions subjects scores truem min_docs) :
    ∃ cid, cid < subjects.length ∧ u = (subjects.getD cid ("", "")).1 ∧
      reg = pavFit (colPts scores truem cid) ∧ (min_docs : ℚ) ≤ colSum truem cid := by
  unfold _create_pav_regressions at h
  rcases List.mem_filterMap.mp h with ⟨cid, hcid, heq⟩
  by_cases hlt : colSum truem cid < (min_docs : ℚ)
  · rw [if_pos hlt] at heq
    exact absurd heq (by simp)
  · rw [if_neg hlt] at heq
    simp only [Option.some.injEq, Prod.mk.injEq] at heq
    obtain ⟨h1, h2⟩ := heq
    exact ⟨cid, List.mem_range.mp hcid, h1.symm, h2.symm, le_of_not_lt hlt⟩

/-! ### Helper lemmas about `findURI` and the merged score vector -/

lemma findURI_some : ∀ (l : List (String × String)) (u : String) (i : ℕ),
    findURI l u = some i → i < l.length ∧ (l.getD i ("", "")).1 = u := by
  intro l
  induction l with
  | nil => intro u i h; exact absurd h (by simp [findURI])
  | cons s rest ih =>
    intro u i h
    rw [findURI] at h
    by_cases hs : s.1 = u
    · rw [if_pos hs] at h
      simp only [Option.some.injEq] at h
      subst h
      exact ⟨Nat.succ_pos _, by simpa using hs⟩
    · rw [if_neg hs] at h
      rcases Option.map_eq_some'.mp h with ⟨j, hj, hij⟩
      obtain ⟨hlen, hget⟩ := ih u j hj
      subst hij
      exact ⟨Nat.succ_lt_succ hlen, by simpa using hget⟩

lemma findURI_of_getD : ∀ (l : List (String × String)) (i : ℕ),
    (l.map Prod.fst).Nodup → i < l.length →
    findURI l (l.getD i ("", "")).1 = some i := by
  intro l
  induction l with
  | nil => intro i _ hi; exact absurd hi (by simp)
  | cons s rest ih =>
    intro i hnd hi
    rw [List.map_cons] at hnd
    rcases List.nodup_cons.mp hnd with ⟨hnotmem, hnd2⟩
    cases i with
    | zero =>
      rw [findURI]
      simp
    | succ j =>
      have hj : j < rest.length := Nat.lt_of_succ_lt_succ (by simpa using hi)
      have hget : ((s :: rest).getD (j + 1) ("", "")) = rest.getD j ("", "") := by
        simp
      rw [findURI, hget]
      have hne : s.1 ≠ (rest.getD j ("", "")).1 := by
        intro hcontra
        apply hnotmem
        rw [hcontra, List.getD_eq_getElem rest ("", "") hj]
        exact List.mem_map_of_mem Prod.fst (List.getElem_mem hj)
      rw [if_neg hne, ih j hnd2 hj]
      rfl

lemma findURI_iff {l : List (String × String)} {i : ℕ}
    (hnd : (l.map Prod.fst).Nodup) (hi : i < l.length) (s : String) :
    findURI l s = some i ↔ s = (l.getD i ("", "")).1 := by
  constructor
  · intro h
    exact (findURI_some l s i h).2.symm
  · intro h
    subst h
    exact findURI_of_getD l i hnd hi

lemma addHitStep_at {subjects : List (String × String)} {i : ℕ} {u : String}
    (hiff : ∀ s : String, findURI subjects s = some i ↔ s = u)
    (w : ℚ) (v : ℕ → ℚ) (h : AnalysisHit) :
    addHitStep subjects w v h i = v i + (if h.uri == u then w * h.score else 0) := by
  unfold addHitStep
  cases hf : findURI subjects h.uri with
  | none =>
    have hne : h.uri ≠ u := by
      intro hc
      rw [(hiff h.uri).mpr hc] at hf
      exact absurd hf (by simp)
    have hbeq : (h.uri == u) = false := beq_eq_false_iff_ne.mpr hne
    rw [hbeq]
    simp
  | some j =>
    by_cases hj : j = i
    · subst hj
      have heq : h.uri = u := (hiff h.uri).mp hf
      have hbeq : (h.uri == u) = true := beq_iff_eq.mpr heq
      rw [hbeq]
      simp
    · have hne : h.uri ≠ u := by
        intro hc
        rw [(hiff h.uri).mpr hc] at hf
        simp only [Option.some.injEq] at hf
        exact hj hf.symm
      have hbeq : (h.uri == u) = false := beq_eq_false_iff_ne.mpr hne
      rw [hbeq]
      have hij : i ≠ j := fun hc => hj hc.symm
      simp [hij]

lemma addWeightedHits_at {subjects : List (String × String)} {i : ℕ} {u : String}
    (hiff : ∀ s : String, findURI subjects s = some i ↔ s = u) :
    ∀ (hits : List AnalysisHit) (w : ℚ) (v : ℕ → ℚ),
      addWeightedHits subjects w hits v i =
        v i + w * ((hits.filter (fun h => h.uri == u)).map AnalysisHit.score).sum := by
  intro hits
  induction hits with
  | nil => intro w v; simp [addWeightedHits]
  | cons h hs ih =>
    intro w v
    have hstep : addWeightedHits subjects w (h :: hs) v =
        addWeightedHits subjects w hs (addHitStep subjects w v h) := rfl
    rw [hstep, ih w (addHitStep subjects w v h), addHitStep_at hiff w v h]
    by_cases hb : (h.uri == u) = true
    · rw [if_pos hb]
      rw [List.filter_cons, if_pos hb]
      simp only [List.map_cons, List.sum_cons]
      ring
    · rw [if_neg hb]
      rw [List.filter_cons, if_neg hb]
      ring

lemma mergeVector_fold_at {subjects : List (String × String)} {i : ℕ} {u : String}
    (hiff : ∀ s : String, findURI subjects s = some i ↔ s = u) :
    ∀ (whs : List WeightedHits) (v : ℕ → ℚ),
      (whs.foldl (fun v wh => addWeightedHits subjects wh.weight wh.hits v) v) i =
        v i + (whs.map (fun wh =>
          wh.weight * ((wh.hits.filter (fun h => h.uri == u)).map
            AnalysisHit.score).sum)).sum := by
  intro whs
  induction whs with
  | nil => intro v; simp
  | cons wh rest ih =>
    intro v
    have hstep : (wh :: rest).foldl
        (fun v wh => addWeightedHits subjects wh.weight wh.hits v) v =
        rest.foldl (fun v wh => addWeightedHits subjects wh.weight wh.hits v)
          (addWeightedHits subjects wh.weight wh.hits v) := rfl
    rw [hstep, ih, addWeightedHits_at hiff wh.hits wh.weight v]
    simp only [List.map_cons, List.sum_cons]
    ring

lemma mergeVector_at {subjects : List (String × String)} {i : ℕ}
    (hnd : (subjects.map Prod.fst).Nodup) (hi : i < subjects.length)
    (whs : List WeightedHits) :
    mergeVector whs subjects i =
      (whs.map (fun wh =>
        wh.weight * ((wh.hits.filter
          (fun h => h.uri == (subjects.getD i ("", "")).1)).map
            AnalysisHit.score).sum)).sum := by
  have hiff := fun s => findURI_iff hnd hi s
  have h := mergeVector_fold_at hiff whs (fun _ => 0)
  simpa [mergeVector] using h

/-! ### The claims -/

/-- **C1**: in `_apply_pav`, a hit whose concept URI is absent from the loaded
model mapping passes through uncalibrated: the per-hit calibration returns the
hit unchanged — score equal to the raw score exactly — and that hit appears in
the calibrated output. -/
theorem pav_passthrough_untrained (st : PAVBackend) (hits : ListAnalysisResult)
    (source_project project : Project) (m : RegModels) (st' : PAVBackend) (b : Bool)
    (hg : _get_model st source_project.project_id project.project_id = .ok (m, st', b))
    (h : AnalysisHit) (hmem : h ∈ hits.hits) (habs : m.lookup h.uri = none) :
    _apply_pav st hits source_project project =
        .ok (⟨applyPavCore m hits.hits, source_project.subjects⟩, st') ∧
      applyPavHit m h = h ∧ h ∈ applyPavCore m hits.hits := by
  have hid : applyPavHit m h = h := by
    unfold applyPavHit
    rw [habs]
  refine ⟨?_, hid, ?_⟩
  · unfold _apply_pav
    rw [hg]
  · have hmap : applyPavHit m h ∈ hits.hits.map (applyPavHit m) :=
      List.mem_map_of_mem _ hmem
    rw [hid] at hmap
    unfold applyPavCore
    simpa using hmap

theorem pav_passthrough_untrained_witness :
    _apply_pav ⟨"d", [("d/pav-model-s", [("u1", ⟨[⟨0, 1, 1, 2⟩]⟩)])], []⟩
        ⟨[⟨"u2", "L", 1/2⟩], [("u2", "L")]⟩
        ⟨"s", [("u2", "L")], fun _ => []⟩ ⟨"t", [], fun _ => []⟩ =
      .ok (⟨applyPavCore [("u1", ⟨[⟨0, 1, 1, 2⟩]⟩)] [⟨"u2", "L", 1/2⟩], [("u2", "L")]⟩,
        ⟨"d", [("d/pav-model-s", [("u1", ⟨[⟨0, 1, 1, 2⟩]⟩)])],
          [("s", [("u1", ⟨[⟨0, 1, 1, 2⟩]⟩)])]⟩) ∧
      applyPavHit [("u1", ⟨[⟨0, 1, 1, 2⟩]⟩)] ⟨"u2", "L", 1/2⟩ = ⟨"u2", "L", 1/2⟩ ∧
      (⟨"u2", "L", 1/2⟩ : AnalysisHit) ∈
        applyPavCore [("u1", ⟨[⟨0, 1, 1, 2⟩]⟩)] [⟨"u2", "L", 1/2⟩] :=
  pav_passthrough_untrained ⟨"d", [("d/pav-model-s", [("u1", ⟨[⟨0, 1, 1, 2⟩]⟩)])], []⟩
    ⟨[⟨"u2", "L", 1/2⟩], [("u2", "L")]⟩ ⟨"s", [("u2", "L")], fun _ => []⟩
    ⟨"t", [], fun _ => []⟩ [("u1", ⟨[⟨0, 1, 1, 2⟩]⟩)]
    ⟨"d", [("d/pav-model-s", [("u1", ⟨[⟨0, 1, 1, 2⟩]⟩)])],
      [("s", [("u1", ⟨[⟨0, 1, 1, 2⟩]⟩)])]⟩ true rfl
    ⟨"u2", "L", 1/2⟩ (List.mem_singleton.mpr rfl) rfl

/-- **C2**: the merged score of the target-vocabulary concept at index `i` is
the sum over sources of (source weight × that source's total calibrated score
for the concept's URI): hits for URIs outside the target vocabulary are in no
such filter and contribute nothing, a concept reported by no source scores 0,
and the concept's (URI, label, merged score) hit appears in the merged
result. -/
theorem merged_score_formula (whs : List WeightedHits)
    (subjects : List (String × String)) (i : ℕ)
    (hnd : (subjects.map Prod.fst).Nodup) (hi : i < subjects.length) :
    mergeVector whs subjects i =
        (whs.map (fun wh =>
          wh.weight * ((wh.hits.filter
            (fun h => h.uri == (subjects.getD i ("", "")).1)).map
              AnalysisHit.score).sum)).sum ∧
      (⟨(subjects.getD i ("", "")).1, (subjects.getD i ("", "")).2,
          mergeVector whs subjects i⟩ : AnalysisHit) ∈ merge_hits whs subjects ∧
      ((∀ wh ∈ whs, ∀ h ∈ wh.hits, h.uri ≠ (subjects.getD i ("", "")).1) →
        mergeVector whs subjects i = 0) := by
  refine ⟨mergeVector_at hnd hi whs, ?_, ?_⟩
  · unfold merge_hits
    have hmm : (⟨(subjects.getD i ("", "")).1, (subjects.getD i ("", "")).2,
        mergeVector whs subjects i⟩ : AnalysisHit) ∈
        (List.range subjects.length).map (fun i =>
          (⟨(subjects.getD i ("", "")).1, (subjects.getD i ("", "")).2,
            mergeVector whs subjects i⟩ : AnalysisHit)) :=
      List.mem_map.mpr ⟨i, List.mem_range.mpr hi, rfl⟩
    simpa using hmm
  · intro hnone
    rw [mergeVector_at hnd hi whs]
    apply List.sum_eq_zero
    intro x hx
    rcases List.mem_map.mp hx with ⟨wh, hwh, hxe⟩
    have hfil : wh.hits.filter
        (fun h => h.uri == (subjects.getD i ("", "")).1) = [] := by
      rw [List.filter_eq_nil_iff]
      intro a ha
      simpa using hnone wh hwh a ha
    rw [← hxe, hfil]
    simp

theorem merged_score_formula_witness :
    mergeVector [⟨[⟨"c", "C", 4/5⟩], 7/10⟩, ⟨[⟨"c", "C", 2/5⟩], 3/10⟩]
        [("c", "C")] 0 =
      ([⟨[⟨"c", "C", 4/5⟩], 7/10⟩, ⟨[⟨"c", "C", 2/5⟩], 3/10⟩].map
        (fun wh : WeightedHits =>
          wh.weight * ((wh.hits.filter (fun h => h.uri == "c")).map
            AnalysisHit.score).sum)).sum ∧
      mergeVector [⟨[⟨"c", "C", 4/5⟩], 7/10⟩, ⟨[⟨"c", "C", 2/5⟩], 3/10⟩]
        [("c", "C")] 0 = 17/25 ∧
      (⟨"c", "C", mergeVector [⟨[⟨"c", "C", 4/5⟩], 7/10⟩, ⟨[⟨"c", "C", 2/5⟩], 3/10⟩]
          [("c", "C")] 0⟩ : AnalysisHit) ∈
        merge_hits [⟨[⟨"c", "C", 4/5⟩], 7/10⟩, ⟨[⟨"c", "C", 2/5⟩], 3/10⟩] [("c", "C")] :=
  have h := merged_score_formula
    [⟨[⟨"c", "C", 4/5⟩], 7/10⟩, ⟨[⟨"c", "C", 2/5⟩], 3/10⟩] [("c", "C")] 0
    (by decide) (by decide)
  ⟨h.1, by
    rw [h.1]
    norm_num [List.filter], h.2.1⟩

/-- **C3**: the training loop of `_create_pav_model` fits and stores a
regressor for the concept at index `cid` iff the column sum of the label
matrix — the number of positive examples, the labels being binary — reaches
`min_docs`. -/
theorem regressor_stored_iff (subjects : List (String × String))
    (scores truem : List (List ℚ)) (min_docs : ℕ) (cid : ℕ)
    (hnd : (subjects.map Prod.fst).Nodup) (hcid : cid < subjects.length) :
    ((_create_pav_regressions subjects scores truem min_docs).lookup
        (subjects.getD cid ("", "")).1).isSome ↔
      (min_docs : ℚ) ≤ colSum truem cid := by
  constructor
  · intro h
    obtain ⟨reg, hreg⟩ := Option.isSome_iff_exists.mp h
    have hmem := reg_lookup_mem hreg
    obtain ⟨cid2, hcid2, hu, _, hsum⟩ := create_mem_eq hmem
    have hmap : cid < (subjects.map Prod.fst).length := by simpa using hcid
    have hmap2 : cid2 < (subjects.map Prod.fst).length := by simpa using hcid2
    have hg : (subjects.map Prod.fst).get ⟨cid, hmap⟩ =
        (subjects.map Prod.fst).get ⟨cid2, hmap2⟩ := by
      simp only [List.get_eq_getElem, List.getElem_map]
      rw [← List.getD_eq_getElem subjects ("", "") hcid,
        ← List.getD_eq_getElem subjects ("", "") hcid2]
      exact hu
    have hidx : cid = cid2 := by
      have := List.Nodup.get_inj_iff hnd |>.mp hg
      simpa using this
    rw [hidx]
    exact hsum
  · intro h
    apply reg_mem_lookup_isSome (r := pavFit (colPts scores truem cid))
    unfold _create_pav_regressions
    apply List.mem_filterMap.mpr
    exact ⟨cid, List.mem_range.mpr hcid, by rw [if_neg (not_lt.mpr h)]⟩

theorem regressor_stored_iff_witness :
    ((_create_pav_regressions [("u", "L"), ("v", "M")]
        [[1, 1], [1, 1], [1, 1], [1, 1], [0, 1]]
        [[1, 1], [1, 1], [1, 1], [1, 1], [0, 1]] 5).lookup "v").isSome ∧
      ¬ ((_create_pav_regressions [("u", "L"), ("v", "M")]
        [[1, 1], [1, 1], [1, 1], [1, 1], [0, 1]]
        [[1, 1], [1, 1], [1, 1], [1, 1], [0, 1]] 5).lookup "u").isSome :=
  ⟨(regressor_stored_iff [("u", "L"), ("v", "M")]
      [[1, 1], [1, 1], [1, 1], [1, 1], [0, 1]]
      [[1, 1], [1, 1], [1, 1], [1, 1], [0, 1]] 5 1 (by decide) (by decide)).mpr
      (by norm_num [colSum, matCol]),
    fun h => absurd ((regressor_stored_iff [("u", "L"), ("v", "M")]
      [[1, 1], [1, 1], [1, 1], [1, 1], [0, 1]]
      [[1, 1], [1, 1], [1, 1], [1, 1], [0, 1]] 5 0 (by decide) (by decide)).mp h)
      (by norm_num [colSum, matCol])⟩

/-- **C4**: after any sequence of `_get_model` calls on a freshly constructed
backend, if the artifact for a source is absent from its source-id-derived
path then `_get_model` returns (uncaught) a `NotInitializedException` whose
message names the missing path — which embeds the source id — and whose
`project_id` is the owning project's; if the artifact is present, the call
succeeds and no such error is raised. -/
theorem missing_artifact_raises (datadir : String) (disk : List (String × RegModels))
    (calls : List (String × String)) (sid pid : String) :
    (disk.lookup (modelPath datadir sid) = none →
        _get_model (runCalls (initBackend datadir disk) calls) sid pid =
          .error ⟨"PAV model file '" ++ modelPath datadir sid ++ "' not found", pid⟩) ∧
      ((disk.lookup (modelPath datadir sid)).isSome →
        ∃ r, _get_model (runCalls (initBackend datadir disk) calls) sid pid = .ok r) := by
  have hdd : (runCalls (initBackend datadir disk) calls).datadir = datadir :=
    (runCalls_fields (initBackend datadir disk) calls).1
  have hdk : (runCalls (initBackend datadir disk) calls).disk = disk :=
    (runCalls_fields (initBackend datadir disk) calls).2
  have hc : cacheConsistent (runCalls (initBackend datadir disk) calls) :=
    runCalls_consistent (initBackend_consistent datadir disk) calls
  constructor
  · intro habs
    have hcache : (runCalls (initBackend datadir disk) calls).models.lookup sid = none := by
      cases hm : (runCalls (initBackend datadir disk) calls).models.lookup sid with
      | none => rfl
      | some mm =>
        have hcc := hc sid mm hm
        rw [hdd, hdk] at hcc
        rw [habs] at hcc
        exact absurd hcc (by simp)
    unfold _get_model
    rw [hcache, hdd, hdk, habs]
  · intro hsome
    cases hm : (runCalls (initBackend datadir disk) calls).models.lookup sid with
    | some mm =>
      refine ⟨(mm, runCalls (initBackend datadir disk) calls, false), ?_⟩
      unfold _get_model
      rw [hm]
    | none =>
      obtain ⟨mm, hdisk⟩ := Option.isSome_iff_exists.mp hsome
      refine ⟨(mm, { runCalls (initBackend datadir disk) calls with
        models := (sid, mm) :: (runCalls (initBackend datadir disk) calls).models }, true), ?_⟩
      unfold _get_model
      rw [hm, hdd, hdk, hdisk]
      simp [hdd, hdk]

theorem missing_artifact_raises_witness :
    _get_model (runCalls (initBackend "d" []) []) "s" "p" =
      .error ⟨"PAV model file '" ++ modelPath "d" "s" ++ "' not found", "p"⟩ :=
  (missing_artifact_raises "d" [] [] "s" "p").1 rfl

/-- **C5**: every regressor fitted and stored by the training loop is
isotonic: for raw scores `x ≤ y`, the calibrated score at `x` is at most the
calibrated score at `y`. -/
theorem trained_regressor_monotone (subjects : List (String × String))
    (scores truem : List (List ℚ)) (min_docs : ℕ) (u : String) (reg : Regressor)
    (hmem : (u, reg) ∈ _create_pav_regressions subjects scores truem min_docs)
    (x y : ℚ) (hxy : x ≤ y) : reg.predict x ≤ reg.predict y := by
  obtain ⟨cid, _, _, hreg, _⟩ := create_mem_eq hmem
  rw [hreg]
  exact pavFit_mono _ hxy

theorem trained_regressor_monotone_witness :
    (("u", pavFit (colPts [[0], [1]] [[0], [1]] 0)) ∈
        _create_pav_regressions [("u", "L")] [[0], [1]] [[0], [1]] 1) ∧
      (pavFit (colPts [[0], [1]] [[0], [1]] 0)).predict 0 ≤
        (pavFit (colPts [[0], [1]] [[0], [1]] 0)).predict 1 :=
  have hmem : ("u", pavFit (colPts [[0], [1]] [[0], [1]] 0)) ∈
      _create_pav_regressions [("u", "L")] [[0], [1]] [[0], [1]] 1 := by
    unfold _create_pav_regressions
    have hc : ¬ colSum [[0], [1]] 0 < ((1 : ℕ) : ℚ) := by norm_num [colSum, matCol]
    simp [hc]
    norm_num [colSum, matCol]
  ⟨hmem, trained_regressor_monotone [("u", "L")] [[0], [1]] [[0], [1]] 1 "u"
    (pavFit (colPts [[0], [1]] [[0], [1]] 0)) hmem 0 1 (by norm_num)⟩

/-- **C6**: prediction of a fitted regressor clamps out-of-range raw scores —
any raw score at or below the trained minimum predicts the boundary value at
the minimum, any raw score at or above the trained maximum predicts the
boundary value at the maximum — and, the labels being binary (in `[0, 1]`),
every calibrated output lies in `[0, 1]`. -/
theorem predict_clamped_bounded (pts : List (ℚ × ℚ))
    (hsort : List.Pairwise (fun p q => p.1 < q.1) pts)
    (hlab : ∀ p ∈ pts, 0 ≤ p.2 ∧ p.2 ≤ 1) (x : ℚ) :
    (x ≤ (pavFit pts).xmin →
        (pavFit pts).predict x = (pavFit pts).predict (pavFit pts).xmin) ∧
      ((pavFit pts).xmax ≤ x →
        (pavFit pts).predict x = (pavFit pts).predict (pavFit pts).xmax) ∧
      0 ≤ (pavFit pts).predict x ∧ (pavFit pts).predict x ≤ 1 := by
  obtain ⟨hpx, hwf⟩ := pavFit_blocks_x pts hsort
  exact ⟨fun hx => predictBlocks_clamp_lo _ x hwf hx,
    fun hx => predictBlocks_clamp_hi _ x hpx hwf hx,
    predictBlocks_range _ x (pavFit_good pts hlab)⟩

theorem predict_clamped_bounded_witness :
    (pavFit [((1 : ℚ), (1 : ℚ))]).predict 2 =
        (pavFit [((1 : ℚ), (1 : ℚ))]).predict (pavFit [((1 : ℚ), (1 : ℚ))]).xmax ∧
      0 ≤ (pavFit [((1 : ℚ), (1 : ℚ))]).predict 2 ∧
        (pavFit [((1 : ℚ), (1 : ℚ))]).predict 2 ≤ 1 :=
  have h := predict_clamped_bounded [((1 : ℚ), (1 : ℚ))] (by simp)
    (by intro p hp; rw [List.mem_singleton.mp hp]; norm_num) 2
  ⟨h.2.1 (by show (1 : ℚ) ≤ 2; norm_num), h.2.2⟩

/-- **C7**: `atomic_save` persists atomically: at every crash point short of
the final commit, the artifact readable under the canonical name is exactly
the previously committed one (or none), so a failed or interrupted save
commits nothing; a readable canonical artifact never becomes truncated; and a
completed save leaves exactly the new model readable. -/
theorem atomic_save_atomic (fs : SaveFS) (m : RegModels) (c : CrashPoint) :
    (c ≠ .afterCommit → readArtifact (atomic_save fs m c) = readArtifact fs) ∧
      (readArtifact fs ≠ some .truncated →
        readArtifact (atomic_save fs m c) ≠ some .truncated) ∧
      (c = .afterCommit → readArtifact (atomic_save fs m c) = some (.full m)) := by
  cases c <;> simp [atomic_save, readArtifact]

theorem atomic_save_atomic_witness :
    readArtifact (atomic_save ⟨none, none⟩ [] .midWrite) = readArtifact ⟨none, none⟩ ∧
      readArtifact (atomic_save ⟨none, none⟩ [] .midWrite) ≠ some .truncated :=
  have h := atomic_save_atomic ⟨none, none⟩ [] .midWrite
  ⟨h.1 (by decide), h.2.1 (by decide)⟩

/-- **C8** counterexample: a merged result with two target concepts tied at
the same aggregate score is not sorted strictly descending, refuting the
claim's strictness at this concrete input. -/
theorem merged_not_strictly_sorted :
    ¬ List.Chain' hitStrictDesc
      (merge_hits [⟨[⟨"a", "A", 1⟩, ⟨"b", "B", 1⟩], 1⟩] [("a", "A"), ("b", "B")]) := by
  have h0 : mergeVector [⟨[⟨"a", "A", 1⟩, ⟨"b", "B", 1⟩], 1⟩]
      [("a", "A"), ("b", "B")] 0 = 1 := by
    show (0 : ℚ) + 1 * 1 = 1
    norm_num
  have h1 : mergeVector [⟨[⟨"a", "A", 1⟩, ⟨"b", "B", 1⟩], 1⟩]
      [("a", "A"), ("b", "B")] 1 = 1 := by
    show (0 : ℚ) + 1 * 1 = 1
    norm_num
  have hlist : merge_hits [⟨[⟨"a", "A", 1⟩, ⟨"b", "B", 1⟩], 1⟩]
      [("a", "A"), ("b", "B")] =
      List.insertionSort hitDesc [⟨"a", "A", (1 : ℚ)⟩, ⟨"b", "B", (1 : ℚ)⟩] := by
    show List.insertionSort hitDesc
        [⟨"a", "A", mergeVector [⟨[⟨"a", "A", 1⟩, ⟨"b", "B", 1⟩], 1⟩]
            [("a", "A"), ("b", "B")] 0⟩,
          ⟨"b", "B", mergeVector [⟨[⟨"a", "A", 1⟩, ⟨"b", "B", 1⟩], 1⟩]
            [("a", "A"), ("b", "B")] 1⟩] = _
    rw [h0, h1]
  have hsort : List.insertionSort hitDesc
      [(⟨"a", "A", (1 : ℚ)⟩ : AnalysisHit), ⟨"b", "B", (1 : ℚ)⟩] =
      [⟨"a", "A", (1 : ℚ)⟩, ⟨"b", "B", (1 : ℚ)⟩] := by
    norm_num [List.insertionSort, List.orderedInsert, hitDesc]
  rw [hlist, hsort]
  rw [List.chain'_cons]
  norm_num [hitStrictDesc]

/-- **C8** (amended): the calibrated hit list produced by `_apply_pav` and
the merged result returned by `_analyze` are sorted by non-increasing
(descending) score; ties in score may be adjacent, so the order need not be
strict. -/
theorem results_sorted_descending (m : RegModels) (hits : List AnalysisHit)
    (whs : List WeightedHits) (subjects : List (String × String))
    (st : PAVBackend) (text : String) (sources : List (Project × ℚ))
    (project : Project) (r : List AnalysisHit) (st' : PAVBackend)
    (hr : _analyze st text sources project = .ok (r, st')) :
    List.Sorted hitDesc (applyPavCore m hits) ∧
      List.Sorted hitDesc (merge_hits whs subjects) ∧ List.Sorted hitDesc r := by
  refine ⟨List.sorted_insertionSort hitDesc _, List.sorted_insertionSort hitDesc _, ?_⟩
  unfold _analyze at hr
  split at hr
  next => exact absurd hr (by simp)
  next whs2 st2 heq =>
    simp only [Except.ok.injEq, Prod.mk.injEq] at hr
    rw [← hr.1]
    exact List.sorted_insertionSort hitDesc _

theorem results_sorted_descending_witness :
    List.Sorted hitDesc (applyPavCore [] []) ∧
      List.Sorted hitDesc (merge_hits [] []) ∧
      List.Sorted hitDesc (merge_hits [] [("a", "A")]) :=
  results_sorted_descending [] [] [] [] (initBackend "d" []) "x" []
    ⟨"t", [("a", "A")], fun _ => []⟩ (merge_hits [] [("a", "A")])
    (initBackend "d" []) rfl

/-- **C9**: once `_get_model` has successfully loaded (or found cached) a
source's model mapping, every later `_get_model` call for the same source —
after any sequence of further calls on the instance — returns the identical
cached mapping, performs no disk load (flag `false`) and leaves the state
unchanged. -/
theorem model_cache_persists (st : PAVBackend) (sid pid : String) (m : RegModels)
    (st' : PAVBackend) (b : Bool)
    (h : _get_model st sid pid = .ok (m, st', b))
    (calls : List (String × String)) (pid2 : String) :
    _get_model (runCalls st' calls) sid pid2 = .ok (m, runCalls st' calls, false) := by
  have hc : (runCalls st' calls).models.lookup sid = some m :=
    runCalls_lookup_mono (_get_model_ok_facts h).1 calls
  unfold _get_model
  rw [hc]

theorem model_cache_persists_witness :
    _get_model (runCalls ⟨"d", [("d/pav-model-s", [])], [("s", [])]⟩ []) "s" "q" =
      .ok ([], runCalls ⟨"d", [("d/pav-model-s", [])], [("s", [])]⟩ [], false) :=
  model_cache_persists ⟨"d", [("d/pav-model-s", [])], []⟩ "s" "p" []
    ⟨"d", [("d/pav-model-s", [])], [("s", [])]⟩ true rfl [] "q"

/-- **C10**: `_apply_pav` produces exactly one output hit per input hit — the
output is a permutation of the input mapped through the per-hit calibration,
which preserves URI and label and changes only the score —, a successful
result does not depend on the target project (which only feeds the missing-
artifact error), and the result is tagged with the source project's
vocabulary. -/
theorem apply_pav_frame (m : RegModels) (l : List AnalysisHit) (h0 : AnalysisHit)
    (st : PAVBackend) (hits : ListAnalysisResult) (source_project p1 p2 : Project)
    (r : ListAnalysisResult × PAVBackend)
    (hok : _apply_pav st hits source_project p1 = .ok r) :
    (applyPavCore m l).length = l.length ∧
      (applyPavCore m l).Perm (l.map (applyPavHit m)) ∧
      (applyPavHit m h0).uri = h0.uri ∧ (applyPavHit m h0).label = h0.label ∧
      _apply_pav st hits source_project p2 = .ok r ∧
      r.1.subjects = source_project.subjects := by
  have huri : (applyPavHit m h0).uri = h0.uri ∧ (applyPavHit m h0).label = h0.label := by
    unfold applyPavHit
    cases m.lookup h0.uri <;> simp
  have hlen : (applyPavCore m l).length = l.length := by
    simp [applyPavCore]
  have hperm : (applyPavCore m l).Perm (l.map (applyPavHit m)) :=
    List.perm_insertionSort hitDesc _
  unfold _apply_pav at hok
  split at hok
  next => exact absurd hok (by simp)
  next mm st2 bb hg =>
    simp only [Except.ok.injEq] at hok
    refine ⟨hlen, hperm, huri.1, huri.2, ?_, ?_⟩
    · unfold _apply_pav
      rw [_get_model_pid_irrel hg p2.project_id]
      rw [← hok]
    · rw [← hok]

theorem apply_pav_frame_witness :
    (applyPavCore [] [⟨"u", "L", 1⟩]).length = [(⟨"u", "L", 1⟩ : AnalysisHit)].length ∧
      (applyPavCore [] [⟨"u", "L", 1⟩]).Perm
        ([(⟨"u", "L", 1⟩ : AnalysisHit)].map (applyPavHit [])) ∧
      (applyPavHit [] ⟨"u", "L", 1⟩).uri = "u" ∧
      (applyPavHit [] ⟨"u", "L", 1⟩).label = "L" ∧
      _apply_pav ⟨"d", [("d/pav-model-s", [])], []⟩ ⟨[], []⟩
          ⟨"s", [], fun _ => []⟩ ⟨"t2", [], fun _ => []⟩ =
        .ok (⟨applyPavCore [] [], []⟩, ⟨"d", [("d/pav-model-s", [])], [("s", [])]⟩) ∧
      (⟨applyPavCore [] [], ([] : List (String × String))⟩ : ListAnalysisResult).subjects =
        ([] : List (String × String)) :=
  apply_pav_frame [] [⟨"u", "L", 1⟩] ⟨"u", "L", 1⟩
    ⟨"d", [("d/pav-model-s", [])], []⟩ ⟨[], []⟩ ⟨"s", [], fun _ => []⟩
    ⟨"t1", [], fun _ => []⟩ ⟨"t2", [], fun _ => []⟩
    (⟨applyPavCore [] [], []⟩, ⟨"d", [("d/pav-model-s", [])], [("s", [])]⟩) rfl
